import Mathlib

/-!
Verification of the binary-relocation and build-cache layer of the spack
package manager, as described by its specification and exercised by
lib/spack/spack/test/packaging.py.

The relocation routines of spack.relocate are string-rewriting functions on
path strings.  They are embedded shallowly here: a path is a `String`
(a `List Char` underneath), and the filesystem-touching entry points
(relocate_text, relocate_links) are modelled as the pure content
transformations they perform on each file.  Path arithmetic
(dirname, relpath, normalization) follows the os.path conventions the
code relies on.
-/

/-! ## Character-level path primitives -/

/-- Components of a path: each component is the character list between
slashes. -/
abbrev Comp := List Char

/-- Split a character list at every slash, keeping empty groups
(mirrors str.split behaviour used by os.path). -/
def splitChars : List Char → List Comp
  | [] => [[]]
  | c :: rest =>
    if c = '/' then [] :: splitChars rest
    else (c :: (splitChars rest).headD []) :: (splitChars rest).tail

/-- Path components of a string: slash-separated groups, empties dropped
(so absolute and relative paths both yield their real components). -/
def pathComps (l : List Char) : List Comp :=
  (splitChars l).filter (fun c => c ≠ [])

/-- Join components into an absolute path string: each component is
preceded by a slash. -/
def joinAbs (cs : List Comp) : List Char :=
  cs.foldl (fun a c => a ++ '/' :: c) []

/-- Join components into a relative path string: slash-separated, no
leading slash. -/
def joinRel : List Comp → List Char
  | [] => []
  | c :: cs => c ++ joinAbs cs

/-- Everything before the last slash: os.path.dirname for absolute paths
with at least two components. -/
def dirnameChars (l : List Char) : List Char :=
  ((l.reverse.dropWhile (fun a => a ≠ '/')).tail).reverse

/-- Everything after the last slash: os.path.basename. -/
def basenameChars (l : List Char) : List Char :=
  (l.reverse.takeWhile (fun a => a ≠ '/')).reverse

/-- The parent-directory component. -/
def dotdotC : Comp := ['.', '.']

/-- The current-directory component. -/
def dotC : Comp := ['.']

/-- Component form of os.path.relpath: strip the common leading
components, then climb with one `..` per remaining start component. -/
def relpathComps : List Comp → List Comp → List Comp
  | p, [] => p
  | [], y :: ys => List.replicate (y :: ys).length dotdotC ++ []
  | x :: xs, y :: ys =>
    if x = y then relpathComps xs ys
    else List.replicate (y :: ys).length dotdotC ++ (x :: xs)

/-- String form of os.path.relpath (returns "." when the paths agree). -/
def relpathStr (p start : List Char) : List Char :=
  match relpathComps (pathComps p) (pathComps start) with
  | [] => dotC
  | r => joinRel r

/-- One normalization step: `..` pops the last component, `.` is dropped,
anything else is appended. -/
def normStep (acc : List Comp) (c : Comp) : List Comp :=
  if c = dotdotC then acc.dropLast else if c = dotC then acc else acc ++ [c]

/-- Normalize a component list by resolving `.` and `..`, as the dynamic
loader does after substituting $ORIGIN / @loader_path. -/
def normComps (cs : List Comp) : List Comp :=
  cs.foldl normStep []

/-- Replace the prefix old by new if old is a string prefix, mirroring
the spec: "if it is prefixed by old_root, replace that prefix with
new_root; otherwise unchanged". -/
def substRoot (old new p : List Char) : List Char :=
  if old.isPrefixOf p then new ++ p.drop old.length else p

/-! ## ELF relocation functions (spack.relocate), modelled from the spec -/

/-- Loader token introducing an ELF origin-relative rpath. -/
def originTok : List Char := "$ORIGIN/".data

/-- Modelled from the spec: spack.relocate.get_relative_rpaths (the code
is not under src/, only its tests).  "for each absolute rpath entry under
root, compute the relative filesystem path from the binary's containing
directory to that rpath, and encode it as $ORIGIN/<relative>.  Entries
not under root pass through unchanged." -/
def get_relative_rpaths (binPath root : String) (rpaths : List String) : List String :=
  rpaths.map fun r =>
    if root.data.isPrefixOf r.data then
      ⟨originTok ++ relpathStr r.data (dirnameChars binPath.data)⟩
    else r

/-- Modelled from the spec: spack.relocate.substitute_rpath (the code is
not under src/).  "for each entry, if it is prefixed by old_root, replace
that prefix with new_root; otherwise unchanged." -/
def substitute_rpath (orig : List String) (old_root new_root : String) : List String :=
  orig.map fun p => ⟨substRoot old_root.data new_root.data p.data⟩

/-- Resolved target of one rpath entry for a binary whose directory is
binDir: a $ORIGIN-relative entry is resolved by substituting the
directory and normalizing, an absolute entry resolves to itself. -/
def resolveRPath (binDir : List Char) (entry : List Char) : List Char :=
  if originTok.isPrefixOf entry then
    joinAbs (normComps (pathComps binDir ++ pathComps (entry.drop originTok.length)))
  else entry

/-! ## Mach-O relocation functions (spack.relocate), modelled from the spec -/

/-- Loader token introducing a Mach-O loader-relative path. -/
def loaderTok : List Char := "@loader_path/".data

/-- Loader token introducing a Mach-O rpath-relative install name. -/
def rpathTok : List Char := "@rpath/".data

/-- Modelled from the spec: spack.relocate.macho_make_paths_relative (the
code is not under src/).  For every absolute path under root, in rpaths
and dependency paths, encode the path relative to the binary's directory
with @loader_path; a dependency equal to the binary's own id becomes
@rpath/<basename>; other entries pass through; the id becomes the bare
@rpath/<basename> form. -/
def macho_make_paths_relative (path_name root : String)
    (rpaths deps : List String) (id_path : Option String) :
    List String × List String × Option String :=
  let start := dirnameChars path_name.data
  ( rpaths.map fun r =>
      if root.data.isPrefixOf r.data then ⟨loaderTok ++ relpathStr r.data start⟩ else r
  , deps.map fun d =>
      if id_path = some d then ⟨rpathTok ++ basenameChars d.data⟩
      else if root.data.isPrefixOf d.data then ⟨loaderTok ++ relpathStr d.data start⟩
      else d
  , id_path.map fun i => ⟨rpathTok ++ basenameChars i.data⟩ )

/-- Modelled from the spec: spack.relocate.macho_replace_paths (the code
is not under src/).  "every entry prefixed by old_root gets old_root
replaced by new_root; id_path follows the same rule or is passed through
as None if it was None." -/
def macho_replace_paths (old_root new_root : String)
    (rpaths deps : List String) (id_path : Option String) :
    List String × List String × Option String :=
  ( rpaths.map fun p => ⟨substRoot old_root.data new_root.data p.data⟩
  , deps.map fun p => ⟨substRoot old_root.data new_root.data p.data⟩
  , id_path.map fun p => ⟨substRoot old_root.data new_root.data p.data⟩ )

/-! ## Path classification (spack.relocate), modelled from the spec -/

/-- Modelled from the spec: spack.relocate.needs_binary_relocation (the
code is not under src/).  "true when type is application and subtype is
one of x-sharedlib, x-executable, x-mach-binary; false for
x-octet-stream, and false whenever the primary type is not
application." -/
def needs_binary_relocation (filetype subtype : String) : Bool :=
  filetype = "application" &&
    (subtype = "x-sharedlib" || subtype = "x-executable" || subtype = "x-mach-binary")

/-- Modelled from the spec: spack.relocate.needs_text_relocation (the
code is not under src/).  "true when type is text and subtype begins
with x-; false for any symbolic-link-to prefix (symlinks are handled by
the dedicated link-relocation path, never as text)." -/
def needs_text_relocation (filetype subtype : String) : Bool :=
  filetype = "text" && "x-".data.isPrefixOf subtype.data

/-! ## Text and symlink relocation (spack.relocate), modelled from the spec -/

/-- Left-to-right, non-overlapping replacement of every literal
occurrence of old by new, as Python str.replace performs; fuel-indexed
so it evaluates by kernel reduction.  A fuel of the subject's length
always suffices since each step consumes at least one character. -/
def replaceCharsAux (old new : List Char) : Nat → List Char → List Char
  | 0, s => s
  | Nat.succ fuel, s =>
    match s with
    | [] => []
    | c :: rest =>
      if old.isPrefixOf (c :: rest) ∧ old ≠ [] then
        new ++ replaceCharsAux old new fuel ((c :: rest).drop old.length)
      else
        c :: replaceCharsAux old new fuel rest

/-- Replace every literal occurrence of old by new in s (exact substring
matching, left to right, non-overlapping). -/
def replaceChars (old new s : List Char) : List Char :=
  replaceCharsAux old new s.length s

/-- Does pat occur as a contiguous substring of s. -/
def containsChars (pat : List Char) : List Char → Bool
  | [] => pat.isPrefixOf []
  | c :: rest => pat.isPrefixOf (c :: rest) || containsChars pat rest

/-- Split a character list into its newline-separated lines. -/
def splitLinesChars : List Char → List (List Char)
  | [] => [[]]
  | c :: rest =>
    if c = '\n' then [] :: splitLinesChars rest
    else (c :: (splitLinesChars rest).headD []) :: (splitLinesChars rest).tail

/-- Modelled from the spec: spack.relocate.strings_contains_installroot
(the code is not under src/).  "scans a text file's lines for a literal
occurrence of root"; the file is modelled by its content string. -/
def strings_contains_installroot (content root : String) : Bool :=
  (splitLinesChars content.data).any (fun l => containsChars root.data l)

/-- Modelled from the spec: the content rewrite spack.relocate.relocate_text
performs on one file (the code is not under src/): "replace every literal
occurrence of old_path with new_path (and, if they differ, every
occurrence of old_install_prefix with new_install_prefix) — both
substitutions use exact substring matching". -/
def relocate_text_content (oldpath newpath oldpfx newpfx : List Char)
    (content : List Char) : List Char :=
  let c1 := replaceChars oldpath newpath content
  if oldpfx = oldpath ∧ newpfx = newpath then c1
  else replaceChars oldpfx newpfx c1

/-- Modelled from the spec: spack.relocate.relocate_text over a list of
files, each modelled by its content string. -/
def relocate_text (files : List String) (oldpath newpath oldpfx newpfx : String) :
    List String :=
  files.map fun f =>
    ⟨relocate_text_content oldpath.data newpath.data oldpfx.data newpfx.data f.data⟩

/-- Modelled from the spec: the target rewrite spack.relocate.relocate_links
performs on one symlink (the code is not under src/): "for each symlink
whose target is an absolute path under old_root, recreate the symlink
with the target rewritten to the same relative suffix under new_root". -/
def relocate_link_target (old_root new_root target : List Char) : List Char :=
  if old_root.isPrefixOf target then new_root ++ target.drop old_root.length
  else target

/-- Modelled from the spec: spack.relocate.relocate_links over a list of
symlinks, each modelled by its stored target string; each link is
removed and recreated with the rewritten target. -/
def relocate_links (targets : List String) (old_root new_root : String) : List String :=
  targets.map fun t => ⟨relocate_link_target old_root.data new_root.data t.data⟩

/-! ## Build-cache manifest and install (spack.binary_distribution),
modelled from the spec -/

/-- One entry of an install tree: a text file with its content, a
symlink with its stored target, or an opaque binary. -/
inductive FsEntry where
  | text (content : String)
  | link (target : String)
  | binary
deriving DecidableEq

/-- Modelled from the spec: the build manifest written next to each
archive, with "exactly the fields relocate_textfiles (ordered sequence
of relative paths), relocate_links (ordered sequence of relative paths),
and the recorded original_prefix". -/
structure BuildManifest where
  original_prefix : String
  relocate_textfiles : List String
  relocate_links : List String
deriving DecidableEq

/-- Modelled from the spec: the ANALYZE phase of
spack.binary_distribution (the code is not under src/): scan the tree,
classify every file, and record the prefix-relative paths of the
non-relocatable text files (those embedding the install prefix) and of
the symlinks whose absolute target lies under the prefix. -/
def write_buildinfo (pfx : String) (tree : List (String × FsEntry)) : BuildManifest :=
  { original_prefix := pfx
    relocate_textfiles := tree.filterMap fun e =>
      match e.2 with
      | .text c => if containsChars pfx.data c.data then some e.1 else none
      | _ => none
    relocate_links := tree.filterMap fun e =>
      match e.2 with
      | .link t => if pfx.data.isPrefixOf t.data then some e.1 else none
      | _ => none }

/-- Modelled from the spec: the RELOCATE phase of a build-cache install
(the code is not under src/): text files get relocate_text applied and
symlinks get relocate_links applied, binaries are left to the binary
patcher. -/
def relocate_tree (old_pfx new_pfx : String) (tree : List (String × FsEntry)) :
    List (String × FsEntry) :=
  tree.map fun e =>
    match e.2 with
    | .text c =>
      (e.1, .text ⟨relocate_text_content old_pfx.data new_pfx.data
        old_pfx.data new_pfx.data c.data⟩)
    | .link t => (e.1, .link ⟨relocate_link_target old_pfx.data new_pfx.data t.data⟩)
    | .binary => e

/-! ## Session cache of mirror specs (spack.binary_distribution),
modelled from the spec and the test -/

/-- Modelled from the spec: the mirror configuration together with the
module-level set of specs already known to be available on the mirror
(spack.binary_distribution._cached_specs; the code is not under src/). -/
structure BinDistState where
  mirrors : List String
  cached_specs : List String
deriving DecidableEq

/-- Modelled from the spec and the test: spack.config.set of the mirrors
entry replaces the mirror registration set; the test at
packaging.py:194-201 shows it leaves the module-level cached spec set
untouched, clearing it manually afterwards. -/
def set_mirror_config (st : BinDistState) (ms : List String) : BinDistState :=
  { st with mirrors := ms }

/-- Modelled from the test: the caller-side manual reset
bindist._cached_specs = set() at packaging.py:201. -/
def reset_cached_specs (st : BinDistState) : BinDistState :=
  { st with cached_specs := [] }

/-! ## Well-formedness of path components -/

/-- A well-formed path component: nonempty, slash-free, and not one of
the special relative components. -/
def goodComp (c : Comp) : Prop :=
  c ≠ [] ∧ '/' ∉ c ∧ c ≠ dotC ∧ c ≠ dotdotC

/-- A normalized absolute path, given by its nonempty list of
well-formed components. -/
def PathOk (cs : List Comp) : Prop :=
  cs ≠ [] ∧ ∀ c ∈ cs, goodComp c

instance (c : Comp) : Decidable (goodComp c) := by
  unfold goodComp; infer_instance

instance (cs : List Comp) : Decidable (PathOk cs) := by
  unfold PathOk; infer_instance

/-! # Supporting lemmas -/

theorem strData_mk (l : List Char) : (⟨l⟩ : String).data = l := rfl

theorem splitChars_ne_nil (l : List Char) : splitChars l ≠ [] := by
  cases l with
  | nil => simp [splitChars]
  | cons c rest => rw [splitChars]; split <;> simp

theorem splitChars_append_slash (xs ys : List Char) :
    splitChars (xs ++ '/' :: ys) = splitChars xs ++ splitChars ys := by
  induction xs with
  | nil => simp [splitChars]
  | cons c xs ih =>
    by_cases hc : c = '/'
    · subst hc; simp [splitChars, ih]
    · rw [List.cons_append, splitChars, if_neg hc, ih, splitChars, if_neg hc]
      obtain ⟨g, gs, hg⟩ := List.exists_cons_of_ne_nil (splitChars_ne_nil xs)
      rw [hg]; simp

theorem splitChars_no_slash (l : List Char) (h : '/' ∉ l) : splitChars l = [l] := by
  induction l with
  | nil => rfl
  | cons c rest ih =>
    have hc : c ≠ '/' := by rintro rfl; exact h (List.mem_cons_self _ _)
    rw [splitChars, if_neg hc, ih (fun m => h (List.mem_cons_of_mem c m))]
    simp

theorem joinAbs_shift (a : List Char) (cs : List Comp) :
    List.foldl (fun x c => x ++ '/' :: c) a cs = a ++ joinAbs cs := by
  induction cs generalizing a with
  | nil => simp [joinAbs]
  | cons c cs ih =>
    rw [List.foldl_cons, ih]
    conv_rhs => rw [joinAbs, List.foldl_cons, List.nil_append, ih]
    simp

theorem joinAbs_cons (c : Comp) (cs : List Comp) :
    joinAbs (c :: cs) = '/' :: (c ++ joinAbs cs) := by
  rw [joinAbs, List.foldl_cons, List.nil_append, joinAbs_shift]
  rfl

theorem joinAbs_append (a b : List Comp) :
    joinAbs (a ++ b) = joinAbs a ++ joinAbs b := by
  rw [joinAbs, List.foldl_append, joinAbs_shift]
  rfl

theorem joinRel_cons (c : Comp) (cs : List Comp) :
    joinRel (c :: cs) = c ++ joinAbs cs := rfl

theorem splitChars_joinRel (cs : List Comp)
    (h : ∀ c ∈ cs, c ≠ [] ∧ '/' ∉ c) (hne : cs ≠ []) :
    splitChars (joinRel cs) = cs := by
  induction cs with
  | nil => exact absurd rfl hne
  | cons c cs ih =>
    have hc := h c (List.mem_cons_self _ _)
    cases cs with
    | nil =>
      rw [joinRel_cons]
      show splitChars (c ++ joinAbs []) = [c]
      rw [show joinAbs [] = [] from rfl, List.append_nil]
      exact splitChars_no_slash c hc.2
    | cons d ds =>
      rw [joinRel_cons, joinAbs_cons, splitChars_append_slash,
        splitChars_no_slash c hc.2, ← joinRel_cons,
        ih (fun a ha => h a (List.mem_cons_of_mem c ha)) (by simp)]
      rfl

theorem pathComps_joinRel (cs : List Comp)
    (h : ∀ c ∈ cs, c ≠ [] ∧ '/' ∉ c) :
    pathComps (joinRel cs) = cs := by
  cases cs with
  | nil => rfl
  | cons c cs =>
    rw [pathComps, splitChars_joinRel _ h (by simp)]
    exact List.filter_eq_self.mpr (fun a ha => by simpa using (h a ha).1)

theorem pathComps_joinAbs (cs : List Comp)
    (h : ∀ c ∈ cs, c ≠ [] ∧ '/' ∉ c) :
    pathComps (joinAbs cs) = cs := by
  cases cs with
  | nil => rfl
  | cons c cs =>
    rw [joinAbs_cons, ← joinRel_cons, pathComps, splitChars]
    rw [if_pos rfl, splitChars_joinRel _ h (by simp)]
    show List.filter _ ([] :: c :: cs) = c :: cs
    rw [List.filter_cons]
    have hcond : (decide (([] : Comp) ≠ [])) = false := rfl
    rw [hcond]
    simp only [Bool.false_eq_true, if_false]
    exact List.filter_eq_self.mpr (fun a ha => by simpa using (h a ha).1)

theorem dropWhile_append_sat (p : Char → Bool) (xs ys : List Char)
    (h : ∀ a ∈ xs, p a = true) :
    List.dropWhile p (xs ++ ys) = List.dropWhile p ys := by
  induction xs with
  | nil => rfl
  | cons c xs ih =>
    rw [List.cons_append, List.dropWhile_cons, if_pos (h c (List.mem_cons_self _ _))]
    exact ih (fun a ha => h a (List.mem_cons_of_mem c ha))

theorem dirnameChars_append (l : List Char) (c : Comp) (h : '/' ∉ c) :
    dirnameChars (l ++ '/' :: c) = l := by
  rw [dirnameChars, List.reverse_append, List.reverse_cons, List.append_assoc]
  rw [dropWhile_append_sat _ c.reverse _
    (fun a ha => by
      simp only [decide_eq_true_eq]
      rintro rfl
      exact h (List.mem_reverse.mp ha))]
  rw [List.singleton_append, List.dropWhile_cons]
  simp

theorem relpathComps_nil_right (p : List Comp) : relpathComps p [] = p := by
  cases p <;> rfl

theorem relpathComps_nil_left (y : Comp) (ys : List Comp) :
    relpathComps [] (y :: ys) = List.replicate (y :: ys).length dotdotC ++ [] := rfl

theorem relpathComps_cons (x y : Comp) (xs ys : List Comp) :
    relpathComps (x :: xs) (y :: ys) =
      if x = y then relpathComps xs ys
      else List.replicate (y :: ys).length dotdotC ++ (x :: xs) := rfl

theorem relpathComps_append_left (r p q : List Comp) :
    relpathComps (r ++ p) (r ++ q) = relpathComps p q := by
  induction r with
  | nil => rfl
  | cons c r ih =>
    rw [List.cons_append, List.cons_append, relpathComps_cons, if_pos rfl, ih]

theorem relpathComps_mem (p q : List Comp) :
    ∀ c ∈ relpathComps p q, c = dotdotC ∨ c ∈ p := by
  induction q generalizing p with
  | nil => rw [relpathComps_nil_right]; exact fun c hc => Or.inr hc
  | cons y ys ih =>
    cases p with
    | nil =>
      rw [relpathComps_nil_left]
      intro c hc
      rw [List.append_nil] at hc
      exact Or.inl (List.eq_of_mem_replicate hc)
    | cons x xs =>
      rw [relpathComps_cons]
      split
      · intro c hc
        rcases ih xs c hc with h1 | h2
        · exact Or.inl h1
        · exact Or.inr (List.mem_cons_of_mem x h2)
      · intro c hc
        rcases List.mem_append.mp hc with h1 | h2
        · exact Or.inl (List.eq_of_mem_replicate h1)
        · exact Or.inr h2

theorem relpathComps_eq_nil (p q : List Comp) (h : relpathComps p q = []) : p = q := by
  induction q generalizing p with
  | nil => rwa [relpathComps_nil_right] at h
  | cons y ys ih =>
    cases p with
    | nil =>
      rw [relpathComps_nil_left, List.append_nil, List.length_cons,
        List.replicate_succ] at h
      exact absurd h (by simp)
    | cons x xs =>
      rw [relpathComps_cons] at h
      split at h
      · rw [ih xs h]; congr 1
      · rw [List.length_cons, List.replicate_succ] at h
        exact absurd h (by simp)

theorem goodComp_clean (c : Comp) (h : goodComp c) : c ≠ dotdotC ∧ c ≠ dotC :=
  ⟨h.2.2.2, h.2.2.1⟩

theorem foldl_normStep_clean (p : List Comp)
    (hp : ∀ c ∈ p, c ≠ dotdotC ∧ c ≠ dotC) :
    ∀ acc, List.foldl normStep acc p = acc ++ p := by
  induction p with
  | nil => simp
  | cons c p ih =>
    intro acc
    have h1 := hp c (List.mem_cons_self _ _)
    rw [List.foldl_cons,
      show normStep acc c = acc ++ [c] from by rw [normStep, if_neg h1.1, if_neg h1.2],
      ih (fun a ha => hp a (List.mem_cons_of_mem c ha)) (acc ++ [c])]
    simp

theorem foldl_normStep_pop (cs : List Comp) :
    ∀ acc, List.foldl normStep (acc ++ cs) (List.replicate cs.length dotdotC) = acc := by
  induction cs using List.reverseRecOn with
  | nil => simp
  | append_singleton l a ih =>
    intro acc
    rw [List.length_append, List.length_singleton, List.replicate_succ, List.foldl_cons,
      show normStep (acc ++ (l ++ [a])) dotdotC = acc ++ l from by
        rw [normStep, if_pos rfl, ← List.append_assoc, List.dropLast_concat]]
    exact ih acc

theorem foldl_normStep_relpath (d : List Comp) :
    ∀ (p acc : List Comp),
      (∀ c ∈ d, c ≠ dotdotC ∧ c ≠ dotC) → (∀ c ∈ p, c ≠ dotdotC ∧ c ≠ dotC) →
      List.foldl normStep acc (d ++ relpathComps p d) = acc ++ p := by
  induction d with
  | nil =>
    intro p acc _ hp
    rw [List.nil_append, relpathComps_nil_right]
    exact foldl_normStep_clean p hp acc
  | cons y ys ih =>
    intro p acc hd hp
    cases p with
    | nil =>
      rw [relpathComps_nil_left, List.append_nil, List.foldl_append,
        foldl_normStep_clean (y :: ys) hd acc, foldl_normStep_pop (y :: ys) acc]
      simp
    | cons x xs =>
      rw [relpathComps_cons]
      by_cases hxy : x = y
      · subst hxy
        rw [if_pos rfl, List.cons_append, List.foldl_cons,
          show normStep acc x = acc ++ [x] from by
            have h1 := hd x (List.mem_cons_self _ _)
            rw [normStep, if_neg h1.1, if_neg h1.2],
          ih xs (acc ++ [x]) (fun a ha => hd a (List.mem_cons_of_mem x ha))
            (fun a ha => hp a (List.mem_cons_of_mem x ha))]
        simp
      · rw [if_neg hxy, List.foldl_append, List.foldl_append,
          foldl_normStep_clean (y :: ys) hd acc,
          foldl_normStep_pop (y :: ys) acc,
          foldl_normStep_clean (x :: xs) hp acc]

theorem goodComp_basic (c : Comp) (h : goodComp c) : c ≠ [] ∧ '/' ∉ c :=
  ⟨h.1, h.2.1⟩

theorem dirnameChars_joinAbs (r b : List Comp) (hb : b ≠ [])
    (hgood : ∀ c ∈ b, '/' ∉ c) :
    dirnameChars (joinAbs (r ++ b)) = joinAbs (r ++ b.dropLast) := by
  conv_lhs =>
    rw [show b = b.dropLast ++ [b.getLast hb] from (List.dropLast_append_getLast hb).symm]
  rw [← List.append_assoc, joinAbs_append,
    show joinAbs [b.getLast hb] = '/' :: b.getLast hb from rfl]
  exact dirnameChars_append _ _ (hgood _ (List.getLast_mem hb))

theorem isPrefixOf_append_self (l t : List Char) : (l.isPrefixOf (l ++ t)) = true :=
  List.isPrefixOf_iff_prefix.mpr (List.prefix_append _ _)

theorem substRoot_origin (root : List Comp) (new : List Char) (hroot : PathOk root)
    (rest : List Char) :
    substRoot (joinAbs root) new ('$' :: rest) = '$' :: rest := by
  obtain ⟨c, cs, hc⟩ := List.exists_cons_of_ne_nil hroot.1
  rw [hc, joinAbs_cons, substRoot]
  have hp : (('/' :: (c ++ joinAbs cs)).isPrefixOf ('$' :: rest)) = false := rfl
  simp [hp]

theorem substRoot_join (oldR newR s : List Comp) :
    substRoot (joinAbs oldR) (joinAbs newR) (joinAbs (oldR ++ s)) = joinAbs (newR ++ s) := by
  rw [joinAbs_append, joinAbs_append, substRoot,
    if_pos (isPrefixOf_append_self _ _), List.drop_left]

theorem relpathStr_eq (p start : List Char) :
    relpathStr p start =
      if relpathComps (pathComps p) (pathComps start) = [] then dotC
      else joinRel (relpathComps (pathComps p) (pathComps start)) := by
  rw [relpathStr]
  cases relpathComps (pathComps p) (pathComps start) with
  | nil => rfl
  | cons r rs => rw [if_neg (by simp)]

theorem roundtrip_elem (oldR newR bsfx s : List Comp)
    (hOld : PathOk oldR) (hNew : PathOk newR) (hB : PathOk bsfx)
    (hs : ∀ c ∈ s, goodComp c) :
    resolveRPath (dirnameChars (joinAbs (oldR ++ bsfx)))
      (substRoot (joinAbs newR) (joinAbs oldR)
        (originTok ++ relpathStr (joinAbs (newR ++ s))
          (dirnameChars (joinAbs (newR ++ bsfx)))))
      = joinAbs (oldR ++ s) := by
  have hBslash : ∀ c ∈ bsfx, '/' ∉ c := fun c hc => (hB.2 c hc).2.1
  have hDG : ∀ c ∈ bsfx.dropLast, goodComp c :=
    fun c hc => hB.2 c (List.dropLast_subset _ hc)
  have hdirNew : dirnameChars (joinAbs (newR ++ bsfx)) = joinAbs (newR ++ bsfx.dropLast) :=
    dirnameChars_joinAbs _ _ hB.1 hBslash
  have hdirOld : dirnameChars (joinAbs (oldR ++ bsfx)) = joinAbs (oldR ++ bsfx.dropLast) :=
    dirnameChars_joinAbs _ _ hB.1 hBslash
  have hPC1 : pathComps (joinAbs (newR ++ s)) = newR ++ s :=
    pathComps_joinAbs _ (fun c hc => goodComp_basic c (by
      rcases List.mem_append.mp hc with h | h
      exacts [hNew.2 c h, hs c h]))
  have hPC2 : pathComps (joinAbs (newR ++ bsfx.dropLast)) = newR ++ bsfx.dropLast :=
    pathComps_joinAbs _ (fun c hc => goodComp_basic c (by
      rcases List.mem_append.mp hc with h | h
      exacts [hNew.2 c h, hDG c h]))
  have hPCD : pathComps (joinAbs (oldR ++ bsfx.dropLast)) = oldR ++ bsfx.dropLast :=
    pathComps_joinAbs _ (fun c hc => goodComp_basic c (by
      rcases List.mem_append.mp hc with h | h
      exacts [hOld.2 c h, hDG c h]))
  have cleanOld : ∀ c ∈ oldR, c ≠ dotdotC ∧ c ≠ dotC :=
    fun c hc => goodComp_clean c (hOld.2 c hc)
  have cleanD : ∀ c ∈ bsfx.dropLast, c ≠ dotdotC ∧ c ≠ dotC :=
    fun c hc => goodComp_clean c (hDG c hc)
  have cleanS : ∀ c ∈ s, c ≠ dotdotC ∧ c ≠ dotC :=
    fun c hc => goodComp_clean c (hs c hc)
  rw [hdirNew, hdirOld, relpathStr_eq, hPC1, hPC2, relpathComps_append_left]
  by_cases hrel : relpathComps s bsfx.dropLast = []
  · have hseq : s = bsfx.dropLast := relpathComps_eq_nil _ _ hrel
    rw [if_pos hrel,
      show originTok ++ dotC = '$' :: ("ORIGIN/".data ++ dotC) from rfl,
      substRoot_origin newR _ hNew _,
      show ('$' :: ("ORIGIN/".data ++ dotC)) = originTok ++ dotC from rfl,
      resolveRPath, if_pos (isPrefixOf_append_self _ _), List.drop_left,
      show pathComps dotC = [dotC] from rfl, hPCD]
    rw [normComps, List.foldl_append,
      foldl_normStep_clean _ (fun c hc => by
        rcases List.mem_append.mp hc with h | h
        exacts [cleanOld c h, cleanD c h]) [],
      List.nil_append, List.foldl_cons, List.foldl_nil, normStep,
      if_neg (by decide), if_pos rfl, hseq]
  · rw [if_neg hrel]
    obtain ⟨r, rs, hcons⟩ := List.exists_cons_of_ne_nil hrel
    have hgoodrel : ∀ c ∈ relpathComps s bsfx.dropLast, c ≠ [] ∧ '/' ∉ c := by
      intro c hc
      rcases relpathComps_mem s bsfx.dropLast c hc with h1 | h2
      · subst h1; exact ⟨by decide, by decide⟩
      · exact goodComp_basic c (hs c h2)
    rw [show originTok ++ joinRel (relpathComps s bsfx.dropLast)
          = '$' :: ("ORIGIN/".data ++ joinRel (relpathComps s bsfx.dropLast)) from rfl,
      substRoot_origin newR _ hNew _,
      show ('$' :: ("ORIGIN/".data ++ joinRel (relpathComps s bsfx.dropLast)))
          = originTok ++ joinRel (relpathComps s bsfx.dropLast) from rfl,
      resolveRPath, if_pos (isPrefixOf_append_self _ _), List.drop_left,
      pathComps_joinRel _ hgoodrel, hPCD]
    rw [normComps, List.append_assoc, List.foldl_append,
      foldl_normStep_clean oldR cleanOld [], List.nil_append,
      foldl_normStep_relpath bsfx.dropLast s oldR cleanD cleanS]

theorem replaceCharsAux_nil (old new : List Char) (n : Nat) :
    replaceCharsAux old new n [] = [] := by
  cases n <;> rfl

theorem replaceChars_self (old new : List Char) (h : old ≠ []) :
    replaceChars old new old = new := by
  obtain ⟨c, rest, rfl⟩ := List.exists_cons_of_ne_nil h
  rw [replaceChars, show (c :: rest).length = rest.length + 1 from rfl]
  simp only [replaceCharsAux]
  rw [if_pos ⟨List.isPrefixOf_iff_prefix.mpr (List.prefix_refl _), h⟩,
    List.drop_length, replaceCharsAux_nil, List.append_nil]

theorem splitLinesChars_no_newline (s : List Char) (h : '\n' ∉ s) :
    splitLinesChars s = [s] := by
  induction s with
  | nil => rfl
  | cons c rest ih =>
    have hc : c ≠ '\n' := by rintro rfl; exact h (List.mem_cons_self _ _)
    rw [splitLinesChars, if_neg hc, ih (fun m => h (List.mem_cons_of_mem c m))]
    simp

/-! # Claim theorems -/

/-- C1: for the literal sibling-root example — binary
/Users/Shares/spack/pkgC/lib/libC.dylib, root /Users/Shared/spack —
macho_make_paths_relative maps every under-root rpath and dependency to
the four-level loader-relative climb, leaves /usr/local/lib entries
unchanged, and rewrites the id path to the bare rpath basename form. -/
theorem macho_make_paths_relative_sibling_root :
    macho_make_paths_relative "/Users/Shares/spack/pkgC/lib/libC.dylib" "/Users/Shared/spack"
      ["/Users/Shared/spack/pkgA/lib", "/Users/Shared/spack/pkgB/lib", "/usr/local/lib"]
      ["/Users/Shared/spack/pkgA/libA.dylib", "/Users/Shared/spack/pkgB/libB.dylib",
       "/usr/local/lib/libloco.dylib"]
      (some "/Users/Shared/spack/pkgC/lib/libC.dylib")
    = (["@loader_path/../../../../Shared/spack/pkgA/lib",
        "@loader_path/../../../../Shared/spack/pkgB/lib",
        "/usr/local/lib"],
       ["@loader_path/../../../../Shared/spack/pkgA/libA.dylib",
        "@loader_path/../../../../Shared/spack/pkgB/libB.dylib",
        "/usr/local/lib/libloco.dylib"],
       some "@rpath/libC.dylib") := by
  decide

/-- C2: for every sequence of absolute rpath entries under the old root,
substituting the old prefix by the new one, making the result relative
at the relocated binary, and then applying the inverse substitution
yields entries whose resolved targets (at the original binary location)
are byte-identical to the original entries. -/
theorem rpath_relocation_roundtrip (oldR newR bsfx : List Comp) (sfxs : List (List Comp))
    (hOld : PathOk oldR) (hNew : PathOk newR) (hB : PathOk bsfx)
    (hS : ∀ s ∈ sfxs, ∀ c ∈ s, goodComp c) :
    (substitute_rpath
        (get_relative_rpaths ⟨joinAbs (newR ++ bsfx)⟩ ⟨joinAbs newR⟩
          (substitute_rpath (sfxs.map fun s => ⟨joinAbs (oldR ++ s)⟩)
            ⟨joinAbs oldR⟩ ⟨joinAbs newR⟩))
        ⟨joinAbs newR⟩ ⟨joinAbs oldR⟩).map
      (fun e => (⟨resolveRPath (dirnameChars (joinAbs (oldR ++ bsfx))) e.data⟩ : String))
    = sfxs.map fun s => ⟨joinAbs (oldR ++ s)⟩ := by
  induction sfxs with
  | nil => rfl
  | cons s ss ih =>
    have hs' := hS s (List.mem_cons_self _ _)
    have ihs := ih (fun t ht => hS t (List.mem_cons_of_mem _ ht))
    simp only [List.map_cons, substitute_rpath, get_relative_rpaths, strData_mk] at ihs ⊢
    refine List.cons_eq_cons.mpr ⟨?_, ihs⟩
    have hpre : ((joinAbs newR).isPrefixOf (joinAbs (newR ++ s))) = true := by
      rw [joinAbs_append]; exact isPrefixOf_append_self _ _
    rw [substRoot_join, if_pos hpre, strData_mk]
    exact congrArg String.mk (roundtrip_elem oldR newR bsfx s hOld hNew hB hs')

/-- Witness for the C2 roundtrip at the ELF test paths: old root /usr,
new root /opt, binary /usr/bin/test, rpath suffixes lib, lib64 and
local/lib. -/
theorem rpath_relocation_roundtrip_witness :
    (PathOk ["usr".data] ∧ PathOk ["opt".data] ∧ PathOk ["bin".data, "test".data]
      ∧ (∀ s ∈ [["lib".data], ["lib64".data], ["local".data, "lib".data]],
          ∀ c ∈ s, goodComp c))
    ∧ (substitute_rpath
        (get_relative_rpaths ⟨joinAbs (["opt".data] ++ ["bin".data, "test".data])⟩
          ⟨joinAbs ["opt".data]⟩
          (substitute_rpath
            ([["lib".data], ["lib64".data], ["local".data, "lib".data]].map
              fun s => ⟨joinAbs (["usr".data] ++ s)⟩)
            ⟨joinAbs ["usr".data]⟩ ⟨joinAbs ["opt".data]⟩))
        ⟨joinAbs ["opt".data]⟩ ⟨joinAbs ["usr".data]⟩).map
      (fun e => (⟨resolveRPath (dirnameChars (joinAbs (["usr".data] ++ ["bin".data, "test".data])))
          e.data⟩ : String))
      = [["lib".data], ["lib64".data], ["local".data, "lib".data]].map
          fun s => ⟨joinAbs (["usr".data] ++ s)⟩ :=
  ⟨⟨by decide, by decide, by decide, by decide⟩,
   rpath_relocation_roundtrip _ _ _ _ (by decide) (by decide) (by decide) (by decide)⟩

/-- C3: get_relative_rpaths encodes every entry under root as $ORIGIN
followed by the relative path from the binary's directory, passes
entries not under root through unchanged, and on the ELF test input
yields exactly the expected list. -/
theorem get_relative_rpaths_spec :
    (get_relative_rpaths "/usr/bin/test" "/usr" ["/usr/lib", "/usr/lib64", "/opt/local/lib"]
      = ["$ORIGIN/../lib", "$ORIGIN/../lib64", "/opt/local/lib"])
    ∧ (∀ (bin root : String) (rpaths : List String) (i : Nat) (p : String),
        rpaths[i]? = some p → root.data.isPrefixOf p.data = false →
        (get_relative_rpaths bin root rpaths)[i]? = some p)
    ∧ (∀ (bin root : String) (rpaths : List String) (i : Nat) (p : String),
        rpaths[i]? = some p → root.data.isPrefixOf p.data = true →
        (get_relative_rpaths bin root rpaths)[i]? =
          some ⟨originTok ++ relpathStr p.data (dirnameChars bin.data)⟩) := by
  refine ⟨by decide, ?_, ?_⟩
  · intro bin root rpaths i p hi hpre
    rw [get_relative_rpaths, List.getElem?_map, hi]
    simp only [Option.map_some']
    rw [if_neg (by simp [hpre])]
  · intro bin root rpaths i p hi hpre
    rw [get_relative_rpaths, List.getElem?_map, hi]
    simp only [Option.map_some']
    rw [if_pos hpre]

/-- Witness for C3 at the test input: the entry outside the root passes
through unchanged at its position. -/
theorem get_relative_rpaths_spec_witness :
    ((["/usr/lib", "/opt/local/lib"] : List String)[1]? = some "/opt/local/lib"
      ∧ "/usr".data.isPrefixOf "/opt/local/lib".data = false)
    ∧ (get_relative_rpaths "/usr/bin/test" "/usr" ["/usr/lib", "/opt/local/lib"])[1]?
        = some "/opt/local/lib" :=
  ⟨⟨by decide, by decide⟩,
   get_relative_rpaths_spec.2.1 "/usr/bin/test" "/usr" _ 1 _ (by decide) (by decide)⟩

/-- C4: substitute_rpath and macho_replace_paths replace the old root
prefix by the new root in every prefixed entry, leave other entries
(including loader-relative dollar tokens) unchanged, and pass a None
id path through as None; the ELF and Mach-O test inputs evaluate to the
expected outputs. -/
theorem substitute_rpath_spec :
    (substitute_rpath ["/usr/lib", "/usr/lib64", "/opt/local/lib"] "/usr" "/opt"
      = ["/opt/lib", "/opt/lib64", "/opt/local/lib"])
    ∧ (macho_replace_paths "/Users/Shared/spack" "/Applications/spack"
        ["/Users/Shared/spack/pkgA/lib", "/Users/Shared/spack/pkgB/lib", "/usr/local/lib"]
        ["/Users/Shared/spack/pkgA/libA.dylib", "/Users/Shared/spack/pkgB/libB.dylib",
         "/usr/local/lib/libloco.dylib"]
        (some "/Users/Shared/spack/pkgC/lib/libC.dylib")
      = (["/Applications/spack/pkgA/lib", "/Applications/spack/pkgB/lib", "/usr/local/lib"],
         ["/Applications/spack/pkgA/libA.dylib", "/Applications/spack/pkgB/libB.dylib",
          "/usr/local/lib/libloco.dylib"],
         some "/Applications/spack/pkgC/lib/libC.dylib"))
    ∧ (∀ (old new : String) (rp dp : List String),
        (macho_replace_paths old new rp dp none).2.2 = none)
    ∧ (∀ (old new p : String) (t u : List Char),
        old.data = '/' :: t → p.data = '$' :: u →
        substRoot old.data new.data p.data = p.data) := by
  refine ⟨by decide, by decide, fun old new rp dp => rfl, ?_⟩
  intro old new p t u h1 h2
  rw [h1, h2, substRoot]
  have hp : (('/' :: t).isPrefixOf ('$' :: u)) = false := rfl
  simp [hp]

/-- Witness for C4: a dollar-token entry is untouched and a None id path
stays None at concrete inputs. -/
theorem substitute_rpath_spec_witness :
    ("/usr".data = '/' :: "usr".data ∧ "$ORIGIN/../lib".data = '$' :: "ORIGIN/../lib".data)
    ∧ (macho_replace_paths "/usr" "/opt" [] [] none).2.2 = none
    ∧ substRoot "/usr".data "/opt".data "$ORIGIN/../lib".data = "$ORIGIN/../lib".data :=
  ⟨⟨rfl, rfl⟩, substitute_rpath_spec.2.2.1 "/usr" "/opt" [] [],
   substitute_rpath_spec.2.2.2 "/usr" "/opt" "$ORIGIN/../lib" _ _ rfl rfl⟩

/-- C5: needs_binary_relocation holds exactly for application files of
subtype x-sharedlib, x-executable or x-mach-binary (so not for
x-octet-stream nor for non-application types), and needs_text_relocation
holds for text files of an x- subtype and never for a symbolic-link-to
filetype. -/
theorem needs_relocation_spec :
    (∀ filetype subtype : String,
      needs_binary_relocation filetype subtype = true ↔
        filetype = "application" ∧
          (subtype = "x-sharedlib" ∨ subtype = "x-executable" ∨ subtype = "x-mach-binary"))
    ∧ needs_binary_relocation "application" "x-octet-stream" = false
    ∧ (∀ filetype subtype : String, filetype ≠ "application" →
        needs_binary_relocation filetype subtype = false)
    ∧ (∀ subtype : String, "x-".data.isPrefixOf subtype.data = true →
        needs_text_relocation "text" subtype = true)
    ∧ (∀ filetype subtype : String, "symbolic link to".data.isPrefixOf filetype.data = true →
        needs_text_relocation filetype subtype = false) := by
  refine ⟨?_, by decide, ?_, ?_, ?_⟩
  · intro ft st
    simp [needs_binary_relocation, or_assoc]
  · intro ft st h
    simp [needs_binary_relocation, h]
  · intro st h
    simp [needs_text_relocation, h]
  · intro ft st h
    have hne : ft ≠ "text" := by
      rintro rfl
      exact absurd h (by decide)
    simp [needs_text_relocation, hne]

/-- Witness for C5 at the test's classification calls. -/
theorem needs_relocation_spec_witness :
    needs_binary_relocation "application" "x-sharedlib" = true
    ∧ needs_text_relocation "text" "x-" = true
    ∧ needs_text_relocation "symbolic link to" "x-" = false :=
  ⟨(needs_relocation_spec.1 "application" "x-sharedlib").mpr ⟨rfl, Or.inl rfl⟩,
   needs_relocation_spec.2.2.2.1 "x-" (by decide),
   needs_relocation_spec.2.2.2.2 "symbolic link to" "x-" (by decide)⟩

/-- C6 counterexample: relocating a file whose content is exactly the
old path /a to the new path /a/b (a prefix extension, as when relocating
into a deeper tree) yields the content /a/b, in which
strings_contains_installroot still finds the old path — the claim's
unconditional "returns false for every relocated file" is refuted. -/
theorem relocate_text_installroot_counterexample :
    relocate_text ["/a"] "/a" "/a/b" "/a" "/a/b" = ["/a/b"]
    ∧ strings_contains_installroot "/a/b" "/a" = true := by
  decide

/-- C6 (amended): relocate_text replaces every left-to-right,
non-overlapping literal occurrence of old_path by new_path, and
strings_contains_installroot returns false for a relocated file provided
the old path no longer occurs in the rewritten content — in particular,
for the test's file whose content is exactly old_path, whenever new_path
does not itself embed old_path. -/
theorem relocate_text_spec_amended (old new : String) (hne : old.data ≠ [])
    (hnc : containsChars old.data new.data = false) (hnl : '\n' ∉ new.data) :
    relocate_text [old] old new old new = [new]
    ∧ strings_contains_installroot new old = false := by
  constructor
  · have h1 : relocate_text_content old.data new.data old.data new.data old.data
        = new.data := by
      rw [relocate_text_content]
      simp [replaceChars_self _ _ hne]
    simp only [relocate_text, List.map_cons, List.map_nil, h1]
  · rw [strings_contains_installroot, splitLinesChars_no_newline _ hnl]
    simp [hnc]

/-- Witness for the amended C6 at the test's paths. -/
theorem relocate_text_spec_amended_witness :
    ("/home/spack/opt/spack".data ≠ []
      ∧ containsChars "/home/spack/opt/spack".data "/opt/rh/devtoolset/".data = false
      ∧ '\n' ∉ "/opt/rh/devtoolset/".data)
    ∧ relocate_text ["/home/spack/opt/spack"] "/home/spack/opt/spack" "/opt/rh/devtoolset/"
        "/home/spack/opt/spack" "/opt/rh/devtoolset/" = ["/opt/rh/devtoolset/"]
    ∧ strings_contains_installroot "/opt/rh/devtoolset/" "/home/spack/opt/spack" = false :=
  ⟨⟨by decide, by decide, by decide⟩,
   (relocate_text_spec_amended "/home/spack/opt/spack" "/opt/rh/devtoolset/"
     (by decide) (by decide) (by decide)).1,
   (relocate_text_spec_amended "/home/spack/opt/spack" "/opt/rh/devtoolset/"
     (by decide) (by decide) (by decide)).2⟩

/-- C7: for every symlink whose stored target is the old root followed
by a suffix, relocate_links recreates the link at the same position with
the target rewritten to the same suffix joined under the new root, so
the link resolves to the corresponding path under the new root. -/
theorem relocate_links_under_root (targets : List String) (old_root new_root : String)
    (i : Nat) (t : String) (sfx : List Char)
    (hi : targets[i]? = some t) (ht : t.data = old_root.data ++ sfx) :
    (relocate_links targets old_root new_root)[i]? = some ⟨new_root.data ++ sfx⟩ := by
  rw [relocate_links, List.getElem?_map, hi]
  simp only [Option.map_some']
  rw [relocate_link_target, ht, if_pos (isPrefixOf_append_self _ _), List.drop_left]

/-- Witness for C7 at the test's link: target
/home/spack/opt/spack/link.ln under old root /home/spack/opt/spack is
rewritten to the suffix /link.ln under /opt/rh/devtoolset. -/
theorem relocate_links_under_root_witness :
    ((["/home/spack/opt/spack/link.ln"] : List String)[0]?
        = some "/home/spack/opt/spack/link.ln"
      ∧ "/home/spack/opt/spack/link.ln".data
          = "/home/spack/opt/spack".data ++ "/link.ln".data)
    ∧ (relocate_links ["/home/spack/opt/spack/link.ln"]
        "/home/spack/opt/spack" "/opt/rh/devtoolset")[0]?
        = some ⟨"/opt/rh/devtoolset".data ++ "/link.ln".data⟩ :=
  ⟨⟨rfl, rfl⟩,
   relocate_links_under_root ["/home/spack/opt/spack/link.ln"]
     "/home/spack/opt/spack" "/opt/rh/devtoolset" 0
     "/home/spack/opt/spack/link.ln" "/link.ln".data rfl rfl⟩

/-- C10: relocate_links rewrites a link target under the old root
unconditionally, with no existence check on the rewritten target: for
the test's link, the stored target becomes the suffix joined under the
new root even though that path is absent from the set of files existing
at rewrite time, so the recreated link dangles. -/
theorem relocate_links_dangling :
    relocate_links ["/home/spack/opt/spack/link.ln"]
        "/home/spack/opt/spack" "/opt/rh/devtoolset"
      = ["/opt/rh/devtoolset/link.ln"]
    ∧ ("/opt/rh/devtoolset/link.ln" : String) ∉
        (["/home/spack/opt/spack/link.ln", "/home/spack/opt/spack/dummy.txt"] :
          List String) := by
  decide

/-- C8: packaging a tree holding one non-relocatable text file and one
absolute symlink into it produces a manifest listing exactly those two
prefix-relative paths and nothing else (no absolute paths appear), and
after relocation to a new prefix the text file no longer embeds the old
prefix while the symlink's target equals the corresponding file under
the new prefix. -/
theorem buildcache_manifest_spec :
    (write_buildinfo "/oldpfx"
        [("dummy.txt", FsEntry.text "/oldpfx"),
         ("link_to_dummy.txt", FsEntry.link "/oldpfx/dummy.txt"),
         ("README", FsEntry.text "hello"),
         ("bin/app", FsEntry.binary)]
      = { original_prefix := "/oldpfx",
          relocate_textfiles := ["dummy.txt"],
          relocate_links := ["link_to_dummy.txt"] })
    ∧ (∀ p ∈ (["dummy.txt", "link_to_dummy.txt"] : List String),
        ¬ "/".data.isPrefixOf p.data = true)
    ∧ (relocate_tree "/oldpfx" "/newpfx"
        [("dummy.txt", FsEntry.text "/oldpfx"),
         ("link_to_dummy.txt", FsEntry.link "/oldpfx/dummy.txt"),
         ("README", FsEntry.text "hello"),
         ("bin/app", FsEntry.binary)]
      = [("dummy.txt", FsEntry.text "/newpfx"),
         ("link_to_dummy.txt", FsEntry.link "/newpfx/dummy.txt"),
         ("README", FsEntry.text "hello"),
         ("bin/app", FsEntry.binary)])
    ∧ strings_contains_installroot "/newpfx" "/oldpfx" = false
    ∧ ("/newpfx/dummy.txt" : String) = ⟨"/newpfx".data ++ "/dummy.txt".data⟩ := by
  decide

/-- C9 counterexample: removing the mirror from the configuration
(setting the registration set empty) leaves the session cache of
available specs unchanged — it still reports the spec even though its
mirror is gone, so invalidation does not happen without the caller-side
manual reset the claim says is unnecessary. -/
theorem cached_specs_not_invalidated_counterexample :
    (set_mirror_config ⟨["file:///test-mirror"], ["trivial-install-test-package"]⟩ []).mirrors
      = []
    ∧ (set_mirror_config ⟨["file:///test-mirror"], ["trivial-install-test-package"]⟩
        []).cached_specs
      = ["trivial-install-test-package"] := by
  decide

/-- C9 (amended): the session cache of specs known to be on the mirror
survives every change to the mirror registration set unchanged; it stops
reporting specs only after the explicit caller-side reset, which empties
it — exactly what the test performs after deleting its mirror. -/
theorem cached_specs_manual_reset :
    (∀ (st : BinDistState) (ms : List String),
      (set_mirror_config st ms).cached_specs = st.cached_specs)
    ∧ (∀ st : BinDistState, (reset_cached_specs st).cached_specs = []) :=
  ⟨fun _ _ => rfl, fun _ => rfl⟩
